import Mathlib

/-!
Shallow embedding of the large-file splitter in `src/commands/split-file.ts` of
the `vscode-xlog` extension, together with proofs of the specified properties.

Modelling conventions:

* A byte is a `Nat`; a file (and every stream data chunk) is a `List Nat`.
  The newline delimiter `'\n'` is byte `10`.  The source reads the file with
  UTF-8 decoding and measures sizes with `Buffer.byteLength`; since a `0x0A`
  byte never occurs inside a multi-byte UTF-8 sequence, splitting at byte `10`
  and measuring `List.length` is byte-for-byte faithful to the source.
* The JavaScript number `splitSizeInBytes` (which may be fractional, since the
  user may type a fractional MB count) is modelled as a rational number `ℚ`;
  all byte counters are naturals and are cast into `ℚ` for the comparison, as
  in `currentFileSize + pendingSize + lineSize > splitSizeInBytes`.
* The mutable variables of the `data`/`end` handlers become the fields of
  `SplitState` (writer side) and the scanner carry `buffer` of `StreamState`.
  `currentWriteStream` carries no data in the model beyond being open or not,
  so it becomes the `Bool` field `hasStream`; the bytes written to the open
  stream are accumulated in the `content` of the last element of `files`.
-/

namespace XlogSplit

/-- One output chunk file: its name (built like the source's
`${fileName}_${currentFileIndex}.log`), the index used to build that name, and
the bytes written to it so far. -/
structure ChunkFile where
  name : String
  index : Nat
  content : List Nat
deriving DecidableEq

/-- Writer-side state of `splitFileCommand`: the mutable variables
`currentFileIndex`, `currentFileSize`, `currentWriteStream` (as `hasStream`),
`pendingLines`, `pendingSize` from lines 113-118 of the source, and the chunk
files created so far (in creation order). -/
structure SplitState where
  currentFileIndex : Nat
  currentFileSize : Nat
  hasStream : Bool
  pendingLines : List (List Nat)
  pendingSize : Nat
  files : List ChunkFile
deriving DecidableEq

/-- Full streaming state: the writer state plus the line scanner's carry
`buffer` (the trailing partial line kept across `data` events). -/
structure StreamState where
  core : SplitState
  buffer : List Nat
deriving DecidableEq

/-- `const BATCH_SIZE = 100` (line 119 of the source). -/
def BATCH_SIZE : Nat := 100

/-- Chunk file naming, from `${fileName}_${currentFileIndex}.log`
(lines 172 and 202 of the source). -/
def chunkName (baseName : String) (index : Nat) : String :=
  baseName ++ "_" ++ toString index ++ ".log"

/-- Append bytes to the content of the last created chunk file: the model of a
`currentWriteStream.write` call (the open stream is always the most recently
created file). -/
def appendToLast : List ChunkFile → List Nat → List ChunkFile
  | [], _ => []
  | [f], d => [{ f with content := f.content ++ d }]
  | f :: g :: fs, d => f :: appendToLast (g :: fs) d

/-- The batched-write helper `flushPendingLines` (lines 127-135): when there
are pending lines and an open stream, write their concatenation, add its byte
length to `currentFileSize`, and clear the pending batch. -/
def flushPendingLines (s : SplitState) : SplitState :=
  if s.pendingLines ≠ [] ∧ s.hasStream = true then
    { s with
      files := appendToLast s.files s.pendingLines.flatten,
      currentFileSize := s.currentFileSize + s.pendingLines.flatten.length,
      pendingLines := [],
      pendingSize := 0 }
  else s

/-- The batch-size check after batching a line (lines 190-192): flush once
`pendingLines.length >= BATCH_SIZE`. -/
def batchCheck (s : SplitState) : SplitState :=
  if BATCH_SIZE ≤ s.pendingLines.length then flushPendingLines s else s

/-- The body of the per-line part of the `data` handler (lines 147-192):
rotation check, lazy creation of the next chunk file, batching the line, and
the batch-size flush. -/
def processLine (target : ℚ) (baseName : String) (s : SplitState) (line : List Nat) :
    SplitState :=
  let lineSize := line.length
  let s1 :=
    if s.hasStream = true ∧ target < ((s.currentFileSize + s.pendingSize + lineSize : Nat) : ℚ)
    then
      let sf := flushPendingLines s
      { sf with
        hasStream := false,
        currentFileIndex := sf.currentFileIndex + 1,
        currentFileSize := 0 }
    else s
  let s2 :=
    if s1.hasStream = true then s1
    else
      { s1 with
        hasStream := true,
        files := s1.files ++
          [{ name := chunkName baseName s1.currentFileIndex,
             index := s1.currentFileIndex,
             content := [] }] }
  let s3 :=
    { s2 with
      pendingLines := s2.pendingLines ++ [line],
      pendingSize := s2.pendingSize + lineSize }
  batchCheck s3

/-- Repeatedly take the bytes up to and including the first newline, as the
`while (newlineIndex !== -1)` loop (lines 142-145, 194) does with
`buffer.indexOf('\n')` and `buffer.substring`; returns the complete lines in
order and the trailing remainder that contains no newline.  The first argument
accumulates the bytes of the current line in reverse. -/
def extractLinesAux : List Nat → List Nat → List (List Nat) × List Nat
  | acc, [] => ([], acc.reverse)
  | acc, c :: rest =>
    if c = 10 then
      let r := extractLinesAux [] rest
      ((acc.reverse ++ [10]) :: r.1, r.2)
    else
      extractLinesAux (c :: acc) rest

/-- Split a buffer into its complete newline-terminated lines and the trailing
partial line. -/
def extractLines (buf : List Nat) : List (List Nat) × List Nat :=
  extractLinesAux [] buf

/-- One `data` event (lines 138-196): append the incoming chunk to the carry
buffer, process every complete line, and keep the remainder as the new carry
buffer. -/
def processData (target : ℚ) (baseName : String) (s : StreamState) (chunk : List Nat) :
    StreamState :=
  let r := extractLines (s.buffer ++ chunk)
  { core := r.1.foldl (processLine target baseName) s.core, buffer := r.2 }

/-- The `end` event (lines 198-224): if the carry buffer still holds a final
line without trailing newline, create a chunk file for it if none is open and
batch it (with no rotation check); then flush the batch and close the stream. -/
def processEnd (baseName : String) (s : StreamState) : StreamState :=
  let c0 := s.core
  let c1 :=
    if s.buffer ≠ [] then
      let c :=
        if c0.hasStream = true then c0
        else
          { c0 with
            hasStream := true,
            files := c0.files ++
              [{ name := chunkName baseName c0.currentFileIndex,
                 index := c0.currentFileIndex,
                 content := [] }] }
      { c with
        pendingLines := c.pendingLines ++ [s.buffer],
        pendingSize := c.pendingSize + s.buffer.length }
    else c0
  let c2 := flushPendingLines c1
  { core := { c2 with hasStream := false }, buffer := [] }

/-- Initial writer state (lines 113-118): index 1, no open stream, nothing
pending, no files. -/
def initCore : SplitState :=
  { currentFileIndex := 1
    currentFileSize := 0
    hasStream := false
    pendingLines := []
    pendingSize := 0
    files := [] }

/-- Initial streaming state: empty carry buffer. -/
def initState : StreamState := { core := initCore, buffer := [] }

/-- The whole streaming run: fold the `data` events over the delivered chunks,
then the `end` event. -/
def runSplit (target : ℚ) (baseName : String) (chunks : List (List Nat)) : StreamState :=
  processEnd baseName (chunks.foldl (processData target baseName) initState)

/-- The chunk files produced by a run. -/
def splitFiles (target : ℚ) (baseName : String) (chunks : List (List Nat)) :
    List ChunkFile :=
  (runSplit target baseName chunks).core.files

/-- The contents of a list of chunk files, in order. -/
def contentsOf (fs : List ChunkFile) : List (List Nat) :=
  fs.map ChunkFile.content

/-- The line decomposition of a whole file: its complete newline-terminated
lines followed by the final unterminated line, if nonempty. -/
def linesOf (file : List Nat) : List (List Nat) :=
  (extractLines file).1 ++ (if (extractLines file).2 = [] then [] else [(extractLines file).2])

/-- Byte length of the first line of a byte sequence: up to and including the
first newline, or the whole sequence if it has no newline. -/
def firstLineLen (bs : List Nat) : Nat :=
  match (extractLines bs).1 with
  | [] => bs.length
  | l :: _ => l.length

/-- Outcome of invoking the split command, abstracting the dialogs: the
under-800MB warning return, user cancellation of the input box, a value the
input validator rejects, or a completed run with its chunk files. -/
inductive SplitOutcome where
  | noSplitTooSmall : SplitOutcome
  | cancelled : SplitOutcome
  | rejectedInput : SplitOutcome
  | completed : List ChunkFile → SplitOutcome
deriving DecidableEq

/-- The `validateInput` callback of the input box (lines 55-68): empty input is
accepted (the default applies), a number `≤ 0` is rejected, a number strictly
greater than `fileSizeInMB` is rejected, anything else is accepted.  `none`
models the empty string; a non-numeric string (`NaN`) is rejected by the same
`num <= 0`-side branch and is not representable in `ℚ`, so it is omitted. -/
def validateInput (fileSizeInMB : ℚ) (value : Option ℚ) : Bool :=
  match value with
  | none => true
  | some num => if num ≤ 0 then false else if fileSizeInMB < num then false else true

/-- The pre-streaming control flow of `splitFileCommand` (lines 38-85): the
800MB gate on `fileSizeInMB = stats.size / (1024*1024)`, the cancellable input
box guarded by `validateInput`, the MB-to-bytes conversion
`splitSizeInBytes = splitSizeInMB * 1024 * 1024` (default 500), and then the
streaming run.  `userInput = none` is cancellation; `some none` is the empty
string (default 500); `some (some q)` is the number `q`. -/
def splitFileCommand (baseName : String) (chunks : List (List Nat))
    (userInput : Option (Option ℚ)) : SplitOutcome :=
  let fileSizeInBytes : Nat := chunks.flatten.length
  let fileSizeInMB : ℚ := (fileSizeInBytes : ℚ) / (1024 * 1024)
  if fileSizeInMB ≤ 800 then SplitOutcome.noSplitTooSmall
  else
    match userInput with
    | none => SplitOutcome.cancelled
    | some v =>
      if validateInput fileSizeInMB v then
        let splitSizeInMB : ℚ := v.getD 500
        let splitSizeInBytes : ℚ := splitSizeInMB * 1024 * 1024
        SplitOutcome.completed (splitFiles splitSizeInBytes baseName chunks)
      else SplitOutcome.rejectedInput

/-- Content of the most recently created chunk file (the one backing the open
write stream), `[]` if no file exists yet. -/
def lastContent : List ChunkFile → List Nat
  | [] => []
  | [f] => f.content
  | _ :: g :: fs => lastContent (g :: fs)

/-- Virtual view of the chunk files with the pending batch already written to
the open file: what the files will hold once the batch is flushed. -/
def vfiles (s : SplitState) : List ChunkFile :=
  appendToLast s.files s.pendingLines.flatten

/-- A complete line: some newline-free bytes followed by the newline byte. -/
def IsLine (l : List Nat) : Prop :=
  ∃ p, l = p ++ [10] ∧ 10 ∉ p

/-- A well-formed group of complete lines destined for one chunk file: it is
nonempty, all its members are complete lines, and if it holds at least two
lines its total byte size respects the target budget. -/
def GoodGroup (t : ℚ) (g : List (List Nat)) : Prop :=
  g ≠ [] ∧ (∀ l ∈ g, IsLine l) ∧ (2 ≤ g.length → (g.flatten.length : ℚ) ≤ t)

/-- Integer-target mirror of `processLine`: when the byte target is a whole
number of bytes the `ℚ` comparison of the source coincides with the `Nat`
comparison (`processLine_natCast` below), and this version evaluates by
kernel reduction on concrete inputs. -/
def processLineN (target : Nat) (baseName : String) (s : SplitState) (line : List Nat) :
    SplitState :=
  let lineSize := line.length
  let s1 :=
    if s.hasStream = true ∧ target < s.currentFileSize + s.pendingSize + lineSize then
      let sf := flushPendingLines s
      { sf with
        hasStream := false,
        currentFileIndex := sf.currentFileIndex + 1,
        currentFileSize := 0 }
    else s
  let s2 :=
    if s1.hasStream = true then s1
    else
      { s1 with
        hasStream := true,
        files := s1.files ++
          [{ name := chunkName baseName s1.currentFileIndex,
             index := s1.currentFileIndex,
             content := [] }] }
  let s3 :=
    { s2 with
      pendingLines := s2.pendingLines ++ [line],
      pendingSize := s2.pendingSize + lineSize }
  batchCheck s3

/-- Integer-target mirror of `processData`. -/
def processDataN (target : Nat) (baseName : String) (s : StreamState) (chunk : List Nat) :
    StreamState :=
  let r := extractLines (s.buffer ++ chunk)
  { core := r.1.foldl (processLineN target baseName) s.core, buffer := r.2 }

/-- Integer-target mirror of `runSplit`. -/
def runSplitN (target : Nat) (baseName : String) (chunks : List (List Nat)) : StreamState :=
  processEnd baseName (chunks.foldl (processDataN target baseName) initState)

/-- Integer-target mirror of `splitFiles`. -/
def splitFilesN (target : Nat) (baseName : String) (chunks : List (List Nat)) :
    List ChunkFile :=
  (runSplitN target baseName chunks).core.files

/-- Scenario A line: 100 bytes of `a` plus a trailing newline (101 bytes). -/
def lineA : List Nat := List.replicate 100 97 ++ [10]

/-- Scenario A input file: 10 such lines. -/
def scenarioAFile : List Nat := (List.replicate 10 lineA).flatten

/-- Input used to analyse the soft budget bound: a 300-byte newline-terminated
line, a 400-byte newline-terminated line, and a 300-byte final line without a
trailing newline. -/
def cexFile : List Nat :=
  (List.replicate 299 97 ++ [10]) ++ ((List.replicate 399 98 ++ [10]) ++ List.replicate 300 99)

/-- Invariant of the writer state after processing the complete lines `LS`
(in order) from `initCore`, for target `t` and base name `b`.  It ties the
cached counters to their meanings, the stream flag to the file list, the file
indices and names to their contiguous numbering, and exhibits the partition of
the processed lines into per-file groups. -/
structure Inv (t : ℚ) (b : String) (LS : List (List Nat)) (s : SplitState) : Prop where
  pend_size : s.pendingSize = s.pendingLines.flatten.length
  pend_ne : ∀ l ∈ s.pendingLines, l ≠ []
  stream_files : s.hasStream = true → s.files ≠ []
  flushed_len : s.hasStream = true → (lastContent s.files).length = s.currentFileSize
  no_stream : s.hasStream = false → s.pendingLines = [] ∧ s.currentFileSize = 0
  stream_pos : s.hasStream = true → 0 < s.currentFileSize + s.pendingSize
  idx_map : s.files.map ChunkFile.index = List.range' 1 s.files.length
  idx_cur : s.currentFileIndex = s.files.length + (if s.hasStream = true then 0 else 1)
  names : ∀ f ∈ s.files, f.name = chunkName b f.index
  groups : (s.files = [] ∧ LS = []) ∨
    (∃ (gs : List (List (List Nat))) (g : List (List Nat)),
      contentsOf (vfiles s) = gs.map List.flatten ++ [g.flatten] ∧
      gs.flatten ++ g = LS ∧ (∀ x ∈ gs, GoodGroup t x) ∧ GoodGroup t g)

/-! ### Properties of the line scanner -/

theorem extractLinesAux_nil (acc : List Nat) : extractLinesAux acc [] = ([], acc.reverse) :=
  rfl

theorem extractLinesAux_nl (acc rest : List Nat) :
    extractLinesAux acc (10 :: rest) =
      ((acc.reverse ++ [10]) :: (extractLinesAux [] rest).1, (extractLinesAux [] rest).2) := by
  simp [extractLinesAux]

theorem extractLinesAux_ne (acc rest : List Nat) (c : Nat) (hc : c ≠ 10) :
    extractLinesAux acc (c :: rest) = extractLinesAux (c :: acc) rest := by
  simp [extractLinesAux, hc]

theorem extractLinesAux_append (acc x y : List Nat) :
    extractLinesAux acc (x ++ y) =
      ((extractLinesAux acc x).1 ++ (extractLinesAux (extractLinesAux acc x).2.reverse y).1,
        (extractLinesAux (extractLinesAux acc x).2.reverse y).2) := by
  induction x generalizing acc with
  | nil => simp [extractLinesAux_nil]
  | cons c rest ih =>
    by_cases hc : c = 10
    · subst hc
      simp only [List.cons_append, extractLinesAux_nl, ih]
    · simp only [List.cons_append, extractLinesAux_ne _ _ c hc, ih]

theorem extractLinesAux_flatten (acc l : List Nat) :
    (extractLinesAux acc l).1.flatten ++ (extractLinesAux acc l).2 = acc.reverse ++ l := by
  induction l generalizing acc with
  | nil => simp [extractLinesAux_nil]
  | cons c rest ih =>
    by_cases hc : c = 10
    · subst hc
      simp only [extractLinesAux_nl, List.flatten_cons, List.append_assoc]
      rw [show (extractLinesAux [] rest).1.flatten ++ (extractLinesAux [] rest).2
            = rest by simpa using ih []]
      simp
    · rw [extractLinesAux_ne _ _ c hc, ih (c :: acc)]
      simp

theorem extractLinesAux_rem (acc l : List Nat) (hacc : 10 ∉ acc) :
    10 ∉ (extractLinesAux acc l).2 := by
  induction l generalizing acc with
  | nil => simpa [extractLinesAux_nil] using hacc
  | cons c rest ih =>
    by_cases hc : c = 10
    · subst hc
      simpa [extractLinesAux_nl] using ih [] (by simp)
    · rw [extractLinesAux_ne _ _ c hc]
      exact ih (c :: acc) (by
        simp only [List.mem_cons, not_or]
        exact ⟨fun h => hc h.symm, hacc⟩)

theorem extractLinesAux_isLine (acc l : List Nat) (hacc : 10 ∉ acc) :
    ∀ ln ∈ (extractLinesAux acc l).1, IsLine ln := by
  induction l generalizing acc with
  | nil => simp [extractLinesAux_nil]
  | cons c rest ih =>
    by_cases hc : c = 10
    · subst hc
      intro ln hln
      rw [extractLinesAux_nl] at hln
      rcases List.mem_cons.mp hln with h | h
      · exact ⟨acc.reverse, h, by simpa using hacc⟩
      · exact ih [] (by simp) ln h
    · rw [extractLinesAux_ne _ _ c hc]
      exact ih (c :: acc) (by
        simp only [List.mem_cons, not_or]
        exact ⟨fun h => hc h.symm, hacc⟩)

theorem extractLinesAux_shift (acc r c : List Nat) (hr : 10 ∉ r) :
    extractLinesAux acc (r ++ c) = extractLinesAux (r.reverse ++ acc) c := by
  induction r generalizing acc with
  | nil => simp
  | cons b r0 ih =>
    have hb : b ≠ 10 := fun h => hr (h ▸ List.mem_cons_self b r0)
    have hr0 : 10 ∉ r0 := fun h => hr (List.mem_cons_of_mem b h)
    rw [List.cons_append, extractLinesAux_ne _ _ b hb, ih (b :: acc) hr0]
    simp

theorem extractLinesAux_no_nl (acc l : List Nat) (hl : 10 ∉ l) :
    extractLinesAux acc l = ([], acc.reverse ++ l) := by
  rw [show l = l ++ [] by simp, extractLinesAux_shift acc l [] hl]
  simp [extractLinesAux]

theorem extractLines_flatten (buf : List Nat) :
    (extractLines buf).1.flatten ++ (extractLines buf).2 = buf := by
  simpa using extractLinesAux_flatten [] buf

theorem extractLines_rem (buf : List Nat) : 10 ∉ (extractLines buf).2 :=
  extractLinesAux_rem [] buf (by simp)

theorem extractLines_isLine (buf : List Nat) : ∀ ln ∈ (extractLines buf).1, IsLine ln :=
  extractLinesAux_isLine [] buf (by simp)

theorem extractLines_no_nl (l : List Nat) (hl : 10 ∉ l) : extractLines l = ([], l) := by
  simpa [extractLines] using extractLinesAux_no_nl [] l hl

theorem extractLines_append (x y : List Nat) (hx : 10 ∉ (extractLines x).2) :
    extractLines (x ++ y) =
      ((extractLines x).1 ++ (extractLines ((extractLines x).2 ++ y)).1,
        (extractLines ((extractLines x).2 ++ y)).2) := by
  have h1 := extractLinesAux_append [] x y
  have h2 := extractLinesAux_shift [] (extractLines x).2 y hx
  simp only [extractLines] at h2 ⊢
  rw [h1]
  rw [show (extractLinesAux [] x).2.reverse = (extractLinesAux [] x).2.reverse ++ [] by simp]
  rw [← h2]

/-- The first complete line of a buffer that starts with one. -/
theorem extractLines_cons_line (p rest : List Nat) (hp : 10 ∉ p) :
    extractLines (p ++ 10 :: rest) =
      ((p ++ [10]) :: (extractLines rest).1, (extractLines rest).2) := by
  have h := extractLinesAux_shift [] p (10 :: rest) hp
  simp only [extractLines] at h ⊢
  rw [h]
  simp [extractLinesAux]

theorem linesOf_flatten (file : List Nat) : (linesOf file).flatten = file := by
  by_cases h : (extractLines file).2 = []
  · have := extractLines_flatten file
    rw [h] at this
    simpa [linesOf, h] using this
  · have := extractLines_flatten file
    simpa [linesOf, h] using this

/-! ### Properties of the writer primitives -/

theorem appendToLast_nil_right (fs : List ChunkFile) : appendToLast fs [] = fs := by
  induction fs with
  | nil => rfl
  | cons f fs ih =>
    cases fs with
    | nil => simp [appendToLast]
    | cons g gs => simpa [appendToLast] using ih

theorem appendToLast_ne_nil (fs : List ChunkFile) (d : List Nat) (h : fs ≠ []) :
    appendToLast fs d ≠ [] := by
  cases fs with
  | nil => exact absurd rfl h
  | cons f fs =>
    cases fs with
    | nil => simp [appendToLast]
    | cons g gs => simp [appendToLast]

theorem appendToLast_cons_of_ne (f : ChunkFile) (fs : List ChunkFile) (d : List Nat)
    (h : fs ≠ []) : appendToLast (f :: fs) d = f :: appendToLast fs d := by
  cases fs with
  | nil => exact absurd rfl h
  | cons g gs => rfl

theorem lastContent_cons_of_ne (f : ChunkFile) (fs : List ChunkFile) (h : fs ≠ []) :
    lastContent (f :: fs) = lastContent fs := by
  cases fs with
  | nil => exact absurd rfl h
  | cons g gs => rfl

theorem appendToLast_append (fs : List ChunkFile) (d e : List Nat) :
    appendToLast (appendToLast fs d) e = appendToLast fs (d ++ e) := by
  induction fs with
  | nil => rfl
  | cons f fs ih =>
    cases fs with
    | nil => simp [appendToLast]
    | cons g gs =>
      rw [appendToLast_cons_of_ne f (g :: gs) d (by simp),
        appendToLast_cons_of_ne f (appendToLast (g :: gs) d) e
          (appendToLast_ne_nil (g :: gs) d (by simp)),
        appendToLast_cons_of_ne f (g :: gs) (d ++ e) (by simp), ih]

theorem appendToLast_snoc (fs : List ChunkFile) (f : ChunkFile) (d : List Nat) :
    appendToLast (fs ++ [f]) d = fs ++ [{ f with content := f.content ++ d }] := by
  induction fs with
  | nil => rfl
  | cons g gs ih =>
    cases gs with
    | nil => simp [appendToLast]
    | cons h hs => simpa [appendToLast] using ih

theorem appendToLast_length (fs : List ChunkFile) (d : List Nat) :
    (appendToLast fs d).length = fs.length := by
  induction fs with
  | nil => rfl
  | cons f fs ih =>
    cases fs with
    | nil => simp [appendToLast]
    | cons g gs => simpa [appendToLast] using ih

theorem appendToLast_map_index (fs : List ChunkFile) (d : List Nat) :
    (appendToLast fs d).map ChunkFile.index = fs.map ChunkFile.index := by
  induction fs with
  | nil => rfl
  | cons f fs ih =>
    cases fs with
    | nil => simp [appendToLast]
    | cons g gs => simpa [appendToLast] using ih

theorem appendToLast_mem (fs : List ChunkFile) (d : List Nat) :
    ∀ f ∈ appendToLast fs d, ∃ f0 ∈ fs, f.name = f0.name ∧ f.index = f0.index := by
  induction fs with
  | nil => simp [appendToLast]
  | cons f fs ih =>
    cases fs with
    | nil =>
      intro x hx
      simp only [appendToLast, List.mem_singleton] at hx
      exact ⟨f, by simp, by simp [hx]⟩
    | cons g gs =>
      intro x hx
      simp only [appendToLast, List.mem_cons] at hx
      rcases hx with h | h
      · exact ⟨f, by simp, by simp [h]⟩
      · rcases ih x h with ⟨f0, hf0, he⟩
        exact ⟨f0, List.mem_cons_of_mem f hf0, he⟩

theorem lastContent_snoc (fs : List ChunkFile) (f : ChunkFile) :
    lastContent (fs ++ [f]) = f.content := by
  induction fs with
  | nil => rfl
  | cons g gs ih =>
    cases gs with
    | nil => simp [lastContent]
    | cons h hs => simpa [lastContent] using ih

theorem lastContent_appendToLast (fs : List ChunkFile) (d : List Nat) (h : fs ≠ []) :
    lastContent (appendToLast fs d) = lastContent fs ++ d := by
  induction fs with
  | nil => exact absurd rfl h
  | cons f fs ih =>
    cases fs with
    | nil => simp [appendToLast, lastContent]
    | cons g gs =>
      rw [appendToLast_cons_of_ne f (g :: gs) d (by simp),
        lastContent_cons_of_ne f (appendToLast (g :: gs) d)
          (appendToLast_ne_nil (g :: gs) d (by simp)),
        lastContent_cons_of_ne f (g :: gs) (by simp), ih (by simp)]

theorem contentsOf_append (fs gs : List ChunkFile) :
    contentsOf (fs ++ gs) = contentsOf fs ++ contentsOf gs := by
  simp [contentsOf]

theorem contentsOf_appendToLast (fs : List ChunkFile) (cs : List (List Nat))
    (y d : List Nat) (h : contentsOf fs = cs ++ [y]) :
    contentsOf (appendToLast fs d) = cs ++ [y ++ d] := by
  induction fs generalizing cs with
  | nil => simp [contentsOf] at h
  | cons f fs ih =>
    cases fs with
    | nil =>
      have h1 : [f.content] = cs ++ [y] := by simpa [contentsOf] using h
      cases cs with
      | nil =>
        have h2 : f.content = y := by simpa using h1
        simp [appendToLast, contentsOf, h2]
      | cons c cs0 =>
        rw [List.cons_append] at h1
        injection h1 with h2 h3
        exact absurd h3.symm (by simp)
    | cons g gs =>
      have h1 : f.content :: contentsOf (g :: gs) = cs ++ [y] := by
        simpa [contentsOf] using h
      cases cs with
      | nil =>
        have h2 : contentsOf (g :: gs) = [] := by
          have := h1
          simp only [List.nil_append] at this
          injection this with _ h2
        simp [contentsOf] at h2
      | cons c cs0 =>
        rw [List.cons_append] at h1
        injection h1 with h2 h3
        rw [appendToLast_cons_of_ne f (g :: gs) d (by simp)]
        have h4 := ih cs0 h3
        simp only [contentsOf, List.map_cons] at h4 ⊢
        rw [h4, h2, List.cons_append]

theorem lastContent_of_contents (fs : List ChunkFile) (cs : List (List Nat)) (y : List Nat)
    (h : contentsOf fs = cs ++ [y]) : lastContent fs = y := by
  induction fs generalizing cs with
  | nil => simp [contentsOf] at h
  | cons f fs ih =>
    cases fs with
    | nil =>
      have h1 : [f.content] = cs ++ [y] := by simpa [contentsOf] using h
      cases cs with
      | nil =>
        have h2 : f.content = y := by simpa using h1
        simpa [lastContent] using h2
      | cons c cs0 =>
        rw [List.cons_append] at h1
        injection h1 with h2 h3
        exact absurd h3.symm (by simp)
    | cons g gs =>
      have h1 : f.content :: contentsOf (g :: gs) = cs ++ [y] := by
        simpa [contentsOf] using h
      cases cs with
      | nil =>
        have h2 : contentsOf (g :: gs) = [] := by
          have := h1
          simp only [List.nil_append] at this
          injection this with _ h2
        simp [contentsOf] at h2
      | cons c cs0 =>
        rw [List.cons_append] at h1
        injection h1 with h2 h3
        rw [lastContent_cons_of_ne f (g :: gs) (by simp)]
        exact ih cs0 h3

/-! ### The flush operation -/

theorem flushPendingLines_spec (s : SplitState) (hs : s.hasStream = true)
    (hps : s.pendingSize = s.pendingLines.flatten.length) :
    flushPendingLines s =
      { s with
        files := vfiles s,
        currentFileSize := s.currentFileSize + s.pendingSize,
        pendingLines := [],
        pendingSize := 0 } := by
  by_cases hp : s.pendingLines = []
  · have h1 : ¬ (s.pendingLines ≠ [] ∧ s.hasStream = true) := by simp [hp]
    rw [flushPendingLines, if_neg h1]
    have h2 : s.pendingSize = 0 := by rw [hps, hp]; simp
    cases s
    simp_all [vfiles, appendToLast_nil_right]
  · rw [flushPendingLines, if_pos ⟨hp, hs⟩]
    simp [vfiles, hps]

theorem vfiles_flush (s : SplitState) : vfiles (flushPendingLines s) = vfiles s := by
  by_cases h : s.pendingLines ≠ [] ∧ s.hasStream = true
  · rw [flushPendingLines, if_pos h]
    simp [vfiles, appendToLast_nil_right]
  · rw [flushPendingLines, if_neg h]

theorem flush_inv {t : ℚ} {b : String} {LS : List (List Nat)} {s : SplitState}
    (h : Inv t b LS s) : Inv t b LS (flushPendingLines s) := by
  by_cases hc : s.pendingLines ≠ [] ∧ s.hasStream = true
  · have hsf : s.files ≠ [] := h.stream_files hc.2
    rw [flushPendingLines, if_pos hc]
    refine ⟨?_, ?_, ?_, ?_, ?_, ?_, ?_, ?_, ?_, ?_⟩
    · simp
    · simp
    · intro _
      exact appendToLast_ne_nil _ _ hsf
    · intro _
      rw [lastContent_appendToLast _ _ hsf]
      simp [h.flushed_len hc.2, h.pend_size]
    · intro hf
      simp only at hf
      rw [hc.2] at hf
      simp at hf
    · intro _
      have := h.stream_pos hc.2
      have := h.pend_size
      simp only
      omega
    · simp only [appendToLast_map_index, appendToLast_length]
      exact h.idx_map
    · simp only [appendToLast_length]
      exact h.idx_cur
    · intro f hf
      rcases appendToLast_mem _ _ f hf with ⟨f0, hf0, hn, hi⟩
      rw [hn, hi]
      exact h.names f0 hf0
    · rcases h.groups with ⟨hfe, _⟩ | ⟨gs, g, h1, h2, h3, h4⟩
      · exact absurd hfe hsf
      · refine Or.inr ⟨gs, g, ?_, h2, h3, h4⟩
        rw [← h1]
        simp only [vfiles]
        rw [List.flatten_nil, appendToLast_nil_right]
  · rw [flushPendingLines, if_neg hc]
    exact h

theorem batch_inv {t : ℚ} {b : String} {LS : List (List Nat)} {s : SplitState}
    (h : Inv t b LS s) : Inv t b LS (batchCheck s) := by
  rw [batchCheck]
  by_cases hc : BATCH_SIZE ≤ s.pendingLines.length
  · rw [if_pos hc]
    exact flush_inv h
  · rw [if_neg hc]
    exact h

/-! ### Case analysis of `processLine` -/

theorem processLine_rotate (t : ℚ) (b : String) (s : SplitState) (l : List Nat)
    (hs : s.hasStream = true)
    (hgt : t < ((s.currentFileSize + s.pendingSize + l.length : Nat) : ℚ))
    (hps : s.pendingSize = s.pendingLines.flatten.length) :
    processLine t b s l =
      { currentFileIndex := s.currentFileIndex + 1,
        currentFileSize := 0,
        hasStream := true,
        pendingLines := [l],
        pendingSize := l.length,
        files := vfiles s ++
          [{ name := chunkName b (s.currentFileIndex + 1),
             index := s.currentFileIndex + 1, content := [] }] } := by
  have hcond : s.hasStream = true ∧
      t < ((s.currentFileSize + s.pendingSize + l.length : Nat) : ℚ) := ⟨hs, hgt⟩
  simp only [processLine, if_pos hcond, flushPendingLines_spec s hs hps]
  simp [batchCheck, BATCH_SIZE]

theorem processLine_fresh (t : ℚ) (b : String) (s : SplitState) (l : List Nat)
    (hs : s.hasStream = false) (hpd : s.pendingLines = []) :
    processLine t b s l =
      { s with
        hasStream := true,
        pendingLines := [l],
        pendingSize := s.pendingSize + l.length,
        files := s.files ++
          [{ name := chunkName b s.currentFileIndex,
             index := s.currentFileIndex, content := [] }] } := by
  have hcond : ¬ (s.hasStream = true ∧
      t < ((s.currentFileSize + s.pendingSize + l.length : Nat) : ℚ)) := by simp [hs]
  have hns : ¬ (s.hasStream = true) := by simp [hs]
  simp only [processLine, if_neg hcond, if_neg hns]
  simp [batchCheck, BATCH_SIZE, hpd]

theorem processLine_push (t : ℚ) (b : String) (s : SplitState) (l : List Nat)
    (hs : s.hasStream = true)
    (hle : ¬ t < ((s.currentFileSize + s.pendingSize + l.length : Nat) : ℚ)) :
    processLine t b s l =
      batchCheck
        { s with
          pendingLines := s.pendingLines ++ [l],
          pendingSize := s.pendingSize + l.length } := by
  have hcond : ¬ (s.hasStream = true ∧
      t < ((s.currentFileSize + s.pendingSize + l.length : Nat) : ℚ)) :=
    fun hand => hle hand.2
  simp only [processLine, if_neg hcond, if_pos hs]

/-! ### Preservation of the invariant -/

theorem vfiles_map_index (s : SplitState) :
    (vfiles s).map ChunkFile.index = s.files.map ChunkFile.index := by
  simp [vfiles, appendToLast_map_index]

theorem vfiles_length (s : SplitState) : (vfiles s).length = s.files.length := by
  simp [vfiles, appendToLast_length]

theorem range'_one_concat (n : Nat) :
    List.range' 1 (n + 1) = List.range' 1 n ++ [n + 1] := by
  rw [List.range'_concat]
  simp [Nat.add_comm]

theorem processLine_inv {t : ℚ} {b : String} {LS : List (List Nat)} {s : SplitState}
    (h : Inv t b LS s) (l : List Nat) (hl : IsLine l) :
    Inv t b (LS ++ [l]) (processLine t b s l) := by
  have hlpos : 0 < l.length := by
    rcases hl with ⟨p, rfl, _⟩
    simp
  have hlne : l ≠ [] := by
    intro he
    rw [he] at hlpos
    simp at hlpos
  have hgl : GoodGroup t [l] := by
    refine ⟨by simp, by simp [hl], ?_⟩
    intro h2
    simp at h2
  by_cases hs : s.hasStream = true
  · by_cases hgt : t < ((s.currentFileSize + s.pendingSize + l.length : Nat) : ℚ)
    · -- rotation: flush, close, open the next file, batch the line into it
      rw [processLine_rotate t b s l hs hgt h.pend_size]
      have hsf : s.files ≠ [] := h.stream_files hs
      have hidx : s.currentFileIndex = s.files.length := by
        have h0 := h.idx_cur
        rw [if_pos hs] at h0
        omega
      rcases h.groups with ⟨hfe, _⟩ | ⟨gs, g, h1, h2, h3, h4⟩
      · exact absurd hfe hsf
      simp only [vfiles] at h1
      refine ⟨?_, ?_, ?_, ?_, ?_, ?_, ?_, ?_, ?_, ?_⟩
      · simp
      · simp [hlne]
      · intro _
        simp
      · intro _
        simp only [lastContent_snoc]
        rfl
      · intro hb
        simp at hb
      · intro _
        simpa using hlpos
      · simp only [List.map_append, List.map_cons, List.map_nil, List.length_append,
          vfiles_map_index, vfiles_length, List.length_cons, List.length_nil]
        rw [h.idx_map, hidx]
        rw [show s.files.length + (0 + 1) = s.files.length + 1 by omega, range'_one_concat]
      · simp [vfiles_length]
        omega
      · intro f hf
        rcases List.mem_append.mp hf with hf1 | hf1
        · rcases appendToLast_mem _ _ f hf1 with ⟨f0, hf0, hn, hi⟩
          rw [hn, hi]
          exact h.names f0 hf0
        · rw [List.mem_singleton.mp hf1]
      · refine Or.inr ⟨gs ++ [g], [l], ?_, ?_, ?_, hgl⟩
        · simp only [vfiles]
          rw [show ([l] : List (List Nat)).flatten = l by simp, appendToLast_snoc,
            contentsOf_append, h1]
          simp [contentsOf]
        · rw [List.flatten_append, show ([g] : List (List (List Nat))).flatten = g by simp, h2]
        · intro x hx
          rcases List.mem_append.mp hx with hx1 | hx1
          · exact h3 x hx1
          · rw [List.mem_singleton.mp hx1]
            exact h4
    · -- no rotation: batch the line into the open file
      rw [processLine_push t b s l hs hgt]
      apply batch_inv
      have hsf : s.files ≠ [] := h.stream_files hs
      rcases h.groups with ⟨hfe, _⟩ | ⟨gs, g, h1, h2, h3, h4⟩
      · exact absurd hfe hsf
      simp only [vfiles] at h1
      refine ⟨?_, ?_, ?_, ?_, ?_, ?_, ?_, ?_, ?_, ?_⟩
      · simp only [List.flatten_append, List.length_append]
        rw [show ([l] : List (List Nat)).flatten = l by simp]
        have := h.pend_size
        omega
      · intro x hx
        rcases List.mem_append.mp hx with hx1 | hx1
        · exact h.pend_ne x hx1
        · rw [List.mem_singleton.mp hx1]
          exact hlne
      · intro h0
        exact h.stream_files h0
      · intro h0
        exact h.flushed_len h0
      · intro hb
        rw [hs] at hb
        exact absurd hb (by simp)
      · intro _
        have := h.stream_pos hs
        simp only
        omega
      · exact h.idx_map
      · exact h.idx_cur
      · exact h.names
      · refine Or.inr ⟨gs, g ++ [l], ?_, ?_, h3, ?_⟩
        · simp only [vfiles]
          rw [List.flatten_append, show ([l] : List (List Nat)).flatten = l by simp,
            ← appendToLast_append, contentsOf_appendToLast _ _ _ l h1]
          simp [List.flatten_append]
        · rw [← List.append_assoc, h2]
        · obtain ⟨hgne, hglines, hgbound⟩ := h4
          refine ⟨by simp, ?_, ?_⟩
          · intro x hx
            rcases List.mem_append.mp hx with hx1 | hx1
            · exact hglines x hx1
            · rw [List.mem_singleton.mp hx1]
              exact hl
          · intro _
            have e1 : lastContent (appendToLast s.files s.pendingLines.flatten) = g.flatten :=
              lastContent_of_contents _ _ _ h1
            have e2 : lastContent (appendToLast s.files s.pendingLines.flatten)
                = lastContent s.files ++ s.pendingLines.flatten :=
              lastContent_appendToLast _ _ hsf
            have e3 : g.flatten.length
                = (lastContent s.files).length + s.pendingLines.flatten.length := by
              rw [← e1, e2, List.length_append]
            have e4 := h.flushed_len hs
            have e5 := h.pend_size
            have hlen : (g ++ [l]).flatten.length
                = s.currentFileSize + s.pendingSize + l.length := by
              rw [List.flatten_append, show ([l] : List (List Nat)).flatten = l by simp,
                List.length_append]
              omega
            rw [hlen]
            exact not_lt.mp hgt
  · -- no open stream: open the first file of this run lazily
    have hs' : s.hasStream = false := by
      revert hs
      cases s.hasStream <;> simp
    obtain ⟨hpd, hsz⟩ := h.no_stream hs'
    have hpsz : s.pendingSize = 0 := by
      rw [h.pend_size, hpd]
      simp
    have hidx : s.currentFileIndex = s.files.length + 1 := by
      have h0 := h.idx_cur
      rw [if_neg (by simp [hs'])] at h0
      omega
    rw [processLine_fresh t b s l hs' hpd]
    refine ⟨?_, ?_, ?_, ?_, ?_, ?_, ?_, ?_, ?_, ?_⟩
    · simp only
      rw [hpsz]
      simp
    · simp [hlne]
    · intro _
      simp
    · intro _
      simp only [lastContent_snoc]
      simp [hsz]
    · intro hb
      simp at hb
    · intro _
      simp only
      omega
    · simp only [List.map_append, List.map_cons, List.map_nil, List.length_append,
        List.length_cons, List.length_nil]
      rw [h.idx_map, hidx]
      rw [show s.files.length + (0 + 1) = s.files.length + 1 by omega, range'_one_concat]
    · simp
      omega
    · intro f hf
      rcases List.mem_append.mp hf with hf1 | hf1
      · exact h.names f hf1
      · rw [List.mem_singleton.mp hf1]
    · rcases h.groups with ⟨hfe, hLSe⟩ | ⟨gs, g, h1, h2, h3, h4⟩
      · refine Or.inr ⟨[], [l], ?_, ?_, by simp, hgl⟩
        · simp only [vfiles]
          rw [show ([l] : List (List Nat)).flatten = l by simp, appendToLast_snoc, hfe]
          simp [contentsOf]
        · simp [hLSe]
      · simp only [vfiles, hpd, List.flatten_nil, appendToLast_nil_right] at h1
        have hsf : s.files ≠ [] := by
          intro hfe
          rw [hfe] at h1
          exact absurd h1.symm (by simp [contentsOf])
        refine Or.inr ⟨gs ++ [g], [l], ?_, ?_, ?_, hgl⟩
        · simp only [vfiles]
          rw [show ([l] : List (List Nat)).flatten = l by simp, appendToLast_snoc,
            contentsOf_append, h1]
          simp [contentsOf]
        · rw [List.flatten_append, show ([g] : List (List (List Nat))).flatten = g by simp, h2]
        · intro x hx
          rcases List.mem_append.mp hx with hx1 | hx1
          · exact h3 x hx1
          · rw [List.mem_singleton.mp hx1]
            exact h4

theorem init_inv (t : ℚ) (b : String) : Inv t b [] initCore := by
  refine ⟨?_, ?_, ?_, ?_, ?_, ?_, ?_, ?_, ?_, Or.inl ⟨rfl, rfl⟩⟩ <;> simp [initCore]

theorem lineFold_inv {t : ℚ} {b : String} {LS : List (List Nat)} {s : SplitState}
    (h : Inv t b LS s) (L : List (List Nat)) (hL : ∀ l ∈ L, IsLine l) :
    Inv t b (LS ++ L) (L.foldl (processLine t b) s) := by
  induction L generalizing s LS with
  | nil => simpa using h
  | cons l L0 ih =>
    have h1 := processLine_inv h l (hL l (by simp))
    have h2 := ih h1 (fun x hx => hL x (List.mem_cons_of_mem l hx))
    simpa [List.append_assoc] using h2

/-! ### Stream normalization: the run depends only on the concatenated bytes -/

theorem foldl_processData (t : ℚ) (b : String) (chunks : List (List Nat))
    (core : SplitState) (buf : List Nat) (hbuf : 10 ∉ buf) :
    chunks.foldl (processData t b) ⟨core, buf⟩ =
      ⟨(extractLines (buf ++ chunks.flatten)).1.foldl (processLine t b) core,
        (extractLines (buf ++ chunks.flatten)).2⟩ := by
  induction chunks generalizing core buf with
  | nil =>
    simp only [List.foldl_nil, List.flatten_nil, List.append_nil]
    rw [extractLines_no_nl buf hbuf]
    simp
  | cons c cs ih =>
    rw [List.foldl_cons]
    have hstep : processData t b ⟨core, buf⟩ c =
        ⟨(extractLines (buf ++ c)).1.foldl (processLine t b) core,
          (extractLines (buf ++ c)).2⟩ := rfl
    rw [hstep, ih _ _ (extractLines_rem _)]
    have hsplit := extractLines_append (buf ++ c) cs.flatten (extractLines_rem _)
    rw [show buf ++ (c :: cs).flatten = (buf ++ c) ++ cs.flatten by
      simp [List.flatten_cons], hsplit]
    simp [List.foldl_append]

theorem runSplit_eq (t : ℚ) (b : String) (chunks : List (List Nat)) :
    runSplit t b chunks =
      processEnd b
        ⟨(extractLines chunks.flatten).1.foldl (processLine t b) initCore,
          (extractLines chunks.flatten).2⟩ := by
  rw [runSplit, show initState = (⟨initCore, []⟩ : StreamState) from rfl,
    foldl_processData t b chunks initCore [] (by simp)]
  simp

/-! ### The end event -/

theorem flush_pending_nil (s : SplitState) (hns : s.hasStream = false → s.pendingLines = []) :
    (flushPendingLines s).pendingLines = [] := by
  by_cases hc : s.pendingLines ≠ [] ∧ s.hasStream = true
  · rw [flushPendingLines, if_pos hc]
  · rw [flushPendingLines, if_neg hc]
    rcases not_and_or.mp hc with hp | hsb
    · exact not_not.mp hp
    · cases hsv : s.hasStream with
      | false => exact hns hsv
      | true => exact absurd hsv hsb

theorem processEnd_master (t : ℚ) (b : String) (LS : List (List Nat)) (R : List Nat)
    (c : SplitState) (hc : Inv t b LS c) :
    ∃ gs : List (List (List Nat)),
      contentsOf (processEnd b ⟨c, R⟩).core.files = gs.map List.flatten ∧
      gs.flatten = LS ++ (if R = [] then [] else [R]) ∧
      (∀ g ∈ gs.dropLast, GoodGroup t g) ∧
      (∀ g, gs.getLast? = some g →
        GoodGroup t g ∨ ∃ g0, g = g0 ++ [R] ∧ (g0 = [] ∨ GoodGroup t g0)) ∧
      (processEnd b ⟨c, R⟩).core.files.map ChunkFile.index =
        List.range' 1 (processEnd b ⟨c, R⟩).core.files.length ∧
      (∀ f ∈ (processEnd b ⟨c, R⟩).core.files, f.name = chunkName b f.index) := by
  by_cases hR : R = []
  · -- no residual: just flush and close
    subst hR
    have hfe : processEnd b ⟨c, []⟩ =
        ⟨{ flushPendingLines c with hasStream := false }, []⟩ := by
      simp only [processEnd]
      rw [if_neg (by simp)]
    rw [hfe]
    have hc2 := flush_inv hc
    have hp2 : (flushPendingLines c).pendingLines = [] :=
      flush_pending_nil c (fun h0 => (hc.no_stream h0).1)
    have hvf : vfiles (flushPendingLines c) = (flushPendingLines c).files := by
      rw [vfiles, hp2]
      simp [appendToLast_nil_right]
    rcases hc2.groups with ⟨hfe0, hLS0⟩ | ⟨gs, g, h1, h2, h3, h4⟩
    · refine ⟨[], ?_, ?_, by simp, by simp, ?_, ?_⟩
      · simp [hfe0, contentsOf]
      · simp [hLS0]
      · exact hc2.idx_map
      · intro f hf
        exact hc2.names f hf
    · rw [hvf] at h1
      refine ⟨gs ++ [g], ?_, ?_, ?_, ?_, hc2.idx_map, hc2.names⟩
      · rw [h1]
        simp
      · rw [List.flatten_append, show ([g] : List (List (List Nat))).flatten = g by simp, h2]
        simp
      · rw [List.dropLast_concat]
        exact h3
      · intro g0 hg0
        rw [List.getLast?_concat] at hg0
        exact Or.inl (Option.some.inj hg0 ▸ h4)
  · -- residual line appended without any rotation check
    by_cases hhs : c.hasStream = true
    · -- append the residual to the open chunk
      have hsf : c.files ≠ [] := hc.stream_files hhs
      have hps1 : (c.pendingSize + R.length) = (c.pendingLines ++ [R]).flatten.length := by
        rw [List.flatten_append, show ([R] : List (List Nat)).flatten = R by simp,
          List.length_append, hc.pend_size]
      have hspec := flushPendingLines_spec ({ c with pendingLines := c.pendingLines ++ [R], pendingSize := c.pendingSize + R.length }) hhs hps1
      have hfiles : (processEnd b ⟨c, R⟩).core.files = vfiles ({ c with pendingLines := c.pendingLines ++ [R], pendingSize := c.pendingSize + R.length }) := by
        simp only [processEnd]
        rw [if_pos (by simpa using hR), if_pos hhs, hspec]
      have hvf1 : vfiles ({ c with pendingLines := c.pendingLines ++ [R], pendingSize := c.pendingSize + R.length }) = appendToLast (vfiles c) R := by
        rw [vfiles]
        simp only
        rw [List.flatten_append, show ([R] : List (List Nat)).flatten = R by simp,
          ← appendToLast_append]
        rfl
      rw [hfiles, hvf1]
      rcases hc.groups with ⟨hfe0, _⟩ | ⟨gs, g, h1, h2, h3, h4⟩
      · exact absurd hfe0 hsf
      refine ⟨gs ++ [g ++ [R]], ?_, ?_, ?_, ?_, ?_, ?_⟩
      · rw [contentsOf_appendToLast _ _ _ R h1]
        simp
      · rw [List.flatten_append,
          show ([g ++ [R]] : List (List (List Nat))).flatten = g ++ [R] by simp,
          ← List.append_assoc, h2, if_neg hR]
      · rw [List.dropLast_concat]
        exact h3
      · intro g0 hg0
        rw [List.getLast?_concat] at hg0
        exact Or.inr ⟨g, (Option.some.inj hg0).symm, Or.inr h4⟩
      · simp only [vfiles, appendToLast_map_index, appendToLast_length]
        exact hc.idx_map
      · intro f hf
        rcases appendToLast_mem _ _ f hf with ⟨f0, hf0, hn, hi⟩
        rcases appendToLast_mem _ _ f0 hf0 with ⟨f1, hf1, hn1, hi1⟩
        rw [hn, hi, hn1, hi1]
        exact hc.names f1 hf1
    · -- no open chunk: create one for the residual alone
      have hs' : c.hasStream = false := by
        revert hhs
        cases c.hasStream <;> simp
      obtain ⟨hpd, hsz⟩ := hc.no_stream hs'
      have hpsz : c.pendingSize = 0 := by
        rw [hc.pend_size, hpd]
        simp
      have hidx : c.currentFileIndex = c.files.length + 1 := by
        have h0 := hc.idx_cur
        rw [if_neg (by simp [hs'])] at h0
        omega
      have hps1 : (c.pendingSize + R.length) = (c.pendingLines ++ [R]).flatten.length := by
        rw [List.flatten_append, show ([R] : List (List Nat)).flatten = R by simp,
          List.length_append, hc.pend_size]
      have hspec := flushPendingLines_spec ({ c with hasStream := true, files := c.files ++ [{ name := chunkName b c.currentFileIndex, index := c.currentFileIndex, content := [] }], pendingLines := c.pendingLines ++ [R], pendingSize := c.pendingSize + R.length }) rfl hps1
      have hfiles : (processEnd b ⟨c, R⟩).core.files = vfiles ({ c with hasStream := true, files := c.files ++ [{ name := chunkName b c.currentFileIndex, index := c.currentFileIndex, content := [] }], pendingLines := c.pendingLines ++ [R], pendingSize := c.pendingSize + R.length }) := by
        simp only [processEnd]
        rw [if_pos (by simpa using hR), if_neg (by simp [hs']), hspec]
      have hvf1 : vfiles ({ c with hasStream := true, files := c.files ++ [{ name := chunkName b c.currentFileIndex, index := c.currentFileIndex, content := [] }], pendingLines := c.pendingLines ++ [R], pendingSize := c.pendingSize + R.length }) = c.files ++ [{ name := chunkName b c.currentFileIndex, index := c.currentFileIndex, content := R }] := by
        rw [vfiles]
        simp only [hpd]
        rw [show (([] : List (List Nat)) ++ [R]).flatten = R by simp, appendToLast_snoc]
        simp
      rw [hfiles, hvf1]
      rcases hc.groups with ⟨hfe0, hLS0⟩ | ⟨gs, g, h1, h2, h3, h4⟩
      · -- empty run so far: the single chunk holds exactly the residual
        refine ⟨[[R]], ?_, ?_, by simp, ?_, ?_, ?_⟩
        · simp [hfe0, contentsOf]
        · simp [hLS0, if_neg hR]
        · intro g0 hg0
          have hg0e : g0 = [R] := by simpa using hg0.symm
          refine Or.inr ⟨[], by simp [hg0e], Or.inl rfl⟩
        · simp [hfe0, hidx]
        · intro f hf
          rw [hfe0] at hf
          have : f = { name := chunkName b c.currentFileIndex, index := c.currentFileIndex, content := R } := by
            simpa using hf
          rw [this]
      · -- append a fresh residual-only chunk after the existing ones
        have hvfc : vfiles c = c.files := by
          rw [vfiles, hpd]
          simp [appendToLast_nil_right]
        rw [hvfc] at h1
        have hsf : c.files ≠ [] := by
          intro hfe1
          rw [hfe1] at h1
          exact absurd h1.symm (by simp [contentsOf])
        refine ⟨gs ++ [g] ++ [[R]], ?_, ?_, ?_, ?_, ?_, ?_⟩
        · rw [contentsOf_append, h1]
          simp [contentsOf]
        · simp only [List.flatten_append]
          rw [show ([g] : List (List (List Nat))).flatten = g by simp,
            show ([[R]] : List (List (List Nat))).flatten = [R] by simp, h2, if_neg hR]
        · rw [List.dropLast_concat]
          intro x hx
          rcases List.mem_append.mp hx with hx1 | hx1
          · exact h3 x hx1
          · rw [List.mem_singleton.mp hx1]
            exact h4
        · intro g0 hg0
          rw [List.getLast?_concat] at hg0
          refine Or.inr ⟨[], by simpa using hg0.symm, Or.inl rfl⟩
        · simp only [List.map_append, List.map_cons, List.map_nil, List.length_append,
            List.length_cons, List.length_nil]
          rw [hc.idx_map, hidx]
          rw [show c.files.length + (0 + 1) = c.files.length + 1 by omega, range'_one_concat]
        · intro f hf
          rcases List.mem_append.mp hf with hf1 | hf1
          · exact hc.names f hf1
          · rw [List.mem_singleton.mp hf1]

/-! ### Master theorem for a whole run -/

theorem flatten_map_flatten (gs : List (List (List Nat))) :
    (gs.map List.flatten).flatten = gs.flatten.flatten := by
  induction gs with
  | nil => rfl
  | cons g gs ih => simp [List.flatten_cons, List.flatten_append, ih]

theorem flush_idx (s : SplitState) :
    (flushPendingLines s).currentFileIndex = s.currentFileIndex := by
  rw [flushPendingLines]
  split <;> rfl

theorem batchCheck_idx (s : SplitState) :
    (batchCheck s).currentFileIndex = s.currentFileIndex := by
  rw [batchCheck]
  split
  · exact flush_idx s
  · rfl

theorem firstLineLen_no_nl (bs : List Nat) (h : 10 ∉ bs) : firstLineLen bs = bs.length := by
  rw [firstLineLen, extractLines_no_nl bs h]

theorem firstLineLen_isLine (l rest : List Nat) (hl : IsLine l) :
    firstLineLen (l ++ rest) = l.length := by
  rcases hl with ⟨p, rfl, hp⟩
  rw [show (p ++ [10]) ++ rest = p ++ 10 :: rest by simp, firstLineLen,
    extractLines_cons_line p rest hp]

theorem runSplit_master (t : ℚ) (b : String) (chunks : List (List Nat)) :
    ∃ gs : List (List (List Nat)),
      contentsOf (splitFiles t b chunks) = gs.map List.flatten ∧
      gs.flatten = linesOf chunks.flatten ∧
      (∀ g ∈ gs.dropLast, GoodGroup t g) ∧
      (∀ g, gs.getLast? = some g →
        GoodGroup t g ∨ ∃ g0, g = g0 ++ [(extractLines chunks.flatten).2] ∧
          (g0 = [] ∨ GoodGroup t g0)) ∧
      (splitFiles t b chunks).map ChunkFile.index =
        List.range' 1 (splitFiles t b chunks).length ∧
      (∀ f ∈ splitFiles t b chunks, f.name = chunkName b f.index) := by
  have hinv : Inv t b (extractLines chunks.flatten).1
      ((extractLines chunks.flatten).1.foldl (processLine t b) initCore) := by
    have h0 := lineFold_inv (init_inv t b) (extractLines chunks.flatten).1
      (extractLines_isLine chunks.flatten)
    simpa using h0
  have hm := processEnd_master t b (extractLines chunks.flatten).1
    (extractLines chunks.flatten).2
    ((extractLines chunks.flatten).1.foldl (processLine t b) initCore) hinv
  rw [splitFiles, runSplit_eq]
  rcases hm with ⟨gs, h1, h2, h3, h4, h5, h6⟩
  refine ⟨gs, h1, ?_, h3, h4, h5, h6⟩
  rw [h2, linesOf]

/-! ### The specified properties -/

/-- C1.  Completeness: concatenating the contents of all output chunk files in
index order reproduces the input byte-for-byte, and the sum of the per-chunk
byte counts equals the input size — no bytes are lost or duplicated. -/
theorem split_completeness (t : ℚ) (b : String) (chunks : List (List Nat)) :
    (contentsOf (splitFiles t b chunks)).flatten = chunks.flatten ∧
    (List.map (fun f => f.content.length) (splitFiles t b chunks)).sum
      = chunks.flatten.length := by
  obtain ⟨gs, h1, h2, -, -, -, -⟩ := runSplit_master t b chunks
  have hjoin : (contentsOf (splitFiles t b chunks)).flatten = chunks.flatten := by
    rw [h1, flatten_map_flatten, h2, linesOf_flatten]
  refine ⟨hjoin, ?_⟩
  have hmap : List.map (fun f => f.content.length) (splitFiles t b chunks)
      = List.map List.length (contentsOf (splitFiles t b chunks)) := by
    rw [contentsOf, List.map_map]
    rfl
  rw [hmap, ← List.length_flatten, hjoin]

/-- C2.  No line splitting: the chunk contents are exactly a partition of the
line decomposition of the input into consecutive groups, so every line of the
input lies contiguously inside exactly one chunk file and no chunk boundary
falls strictly inside a line. -/
theorem split_no_line_split (t : ℚ) (b : String) (chunks : List (List Nat)) :
    ∃ gs : List (List (List Nat)),
      gs.flatten = linesOf chunks.flatten ∧
      contentsOf (splitFiles t b chunks) = gs.map List.flatten := by
  obtain ⟨gs, h1, h2, -, -, -, -⟩ := runSplit_master t b chunks
  exact ⟨gs, h2, h1⟩

/-- C6.  Monotonic contiguous indexing and naming: a run producing N chunks
names them `{baseName}_{index}.log` with indices exactly 1..N in order. -/
theorem split_indexing (t : ℚ) (b : String) (chunks : List (List Nat)) :
    (splitFiles t b chunks).map ChunkFile.index =
      List.range' 1 (splitFiles t b chunks).length ∧
    ∀ f ∈ splitFiles t b chunks, f.name = chunkName b f.index := by
  obtain ⟨gs, -, -, -, -, h5, h6⟩ := runSplit_master t b chunks
  exact ⟨h5, h6⟩

/-- C7.  Determinism of the split: two runs over byte-identical inputs with the
same target produce identical final states (hence byte-identical chunk files),
no matter how the stream delivers its data chunks. -/
theorem split_deterministic (t : ℚ) (b : String) (c1 c2 : List (List Nat))
    (h : c1.flatten = c2.flatten) : runSplit t b c1 = runSplit t b c2 := by
  rw [runSplit_eq, runSplit_eq, h]

/-- Witness for C7 at a concrete input: the same bytes delivered with the
chunk boundary before versus after the newline give identical runs. -/
theorem split_deterministic_witness :
    runSplit 250 "x" [[97, 10], [98]] = runSplit 250 "x" [[97], [10, 98]] :=
  split_deterministic 250 "x" [[97, 10], [98]] [[97], [10, 98]] (by decide)

/-- C3.  Rotation decision: in any reachable writer state, processing a line
rotates to a new chunk (increments `currentFileIndex`) iff
`currentFileSize + pendingSize + lineSize > target` and the current chunk
already holds at least one line, written or pending.  In particular an
oversized line arriving at an empty chunk is accepted without rotation. -/
theorem rotation_decision (t : ℚ) (b : String) (LS : List (List Nat)) (s : SplitState)
    (line : List Nat) (hLS : ∀ l ∈ LS, IsLine l)
    (hs : s = LS.foldl (processLine t b) initCore) :
    ((processLine t b s line).currentFileIndex = s.currentFileIndex + 1 ↔
      (t < ((s.currentFileSize + s.pendingSize + line.length : Nat) : ℚ) ∧
        (0 < s.currentFileSize ∨ s.pendingLines ≠ []))) := by
  have hinv : Inv t b LS s := by
    rw [hs]
    simpa using lineFold_inv (init_inv t b) LS hLS
  have hstream : s.hasStream = true ↔ (0 < s.currentFileSize ∨ s.pendingLines ≠ []) := by
    constructor
    · intro h0
      have hp := hinv.stream_pos h0
      by_cases hcf : 0 < s.currentFileSize
      · exact Or.inl hcf
      · refine Or.inr fun hpe => ?_
        rw [hinv.pend_size, hpe] at hp
        simp at hp
        omega
    · intro h0
      by_contra hns
      have hs0 : s.hasStream = false := by
        revert hns
        cases s.hasStream <;> simp
      obtain ⟨hpd, hsz⟩ := hinv.no_stream hs0
      rcases h0 with h0 | h0
      · omega
      · exact h0 hpd
  constructor
  · intro hrot
    by_cases hsb : s.hasStream = true
    · by_cases hgt : t < ((s.currentFileSize + s.pendingSize + line.length : Nat) : ℚ)
      · exact ⟨hgt, hstream.mp hsb⟩
      · exfalso
        rw [processLine_push t b s line hsb hgt, batchCheck_idx] at hrot
        simp at hrot
    · exfalso
      have hs0 : s.hasStream = false := by
        revert hsb
        cases s.hasStream <;> simp
      rw [processLine_fresh t b s line hs0 (hinv.no_stream hs0).1] at hrot
      simp at hrot
  · rintro ⟨hgt, hcond⟩
    rw [processLine_rotate t b s line (hstream.mpr hcond) hgt hinv.pend_size]

/-- Witness for C3 at the initial state (empty chunk, target 0): the oversized
two-byte line is accepted without rotation, matching the right-hand side being
false because nothing is written or pending. -/
theorem rotation_decision_witness :
    (processLine 0 "x" initCore [97, 10]).currentFileIndex = initCore.currentFileIndex + 1 ↔
      ((0 : ℚ) < ((initCore.currentFileSize + initCore.pendingSize +
          ([97, 10] : List Nat).length : Nat) : ℚ) ∧
        (0 < initCore.currentFileSize ∨ initCore.pendingLines ≠ [])) :=
  rotation_decision 0 "x" [] initCore [97, 10] (by simp) rfl

/-- Counterexample for C5 as stated: a target exactly equal to the source size
(here both 1000 MB) passes `validateInput` — the engine does not refuse the
`target = source` case, only the strict `target > source` case. -/
theorem validate_equal_accepted : validateInput 1000 (some 1000) = true := by
  norm_num [validateInput]

/-- C5 (amended).  The input validator refuses a numeric target iff it is
nonpositive or strictly greater than the source size in MB; equality with the
source size is accepted.  Refusal happens in the input box, before any
streaming starts, so a refused job creates no files and leaves the source
untouched (`splitFileCommand` never reaches `runSplit`). -/
theorem validate_refusal_amended (f v : ℚ) :
    validateInput f (some v) = false ↔ (v ≤ 0 ∨ f < v) := by
  simp only [validateInput]
  by_cases h1 : v ≤ 0
  · simp [h1]
  · by_cases h2 : f < v
    · simp [h1, h2]
    · simp [h1, h2]

/-- C9.  Implicit minimum-size gate: the command refuses with the size warning
exactly when the file is at most 800 MB; only strictly larger files are ever
split (any other outcome, in particular a completed split, requires
`fileSizeInMB > 800`). -/
theorem min_size_gate (b : String) (chunks : List (List Nat)) (inp : Option (Option ℚ)) :
    splitFileCommand b chunks inp = SplitOutcome.noSplitTooSmall ↔
      chunks.flatten.length ≤ 800 * 1024 * 1024 := by
  have hiff : ((chunks.flatten.length : ℚ) / (1024 * 1024) ≤ 800) ↔
      chunks.flatten.length ≤ 800 * 1024 * 1024 := by
    rw [div_le_iff₀ (by norm_num)]
    constructor
    · intro h0
      exact_mod_cast h0
    · intro h0
      exact_mod_cast h0
  simp only [splitFileCommand]
  by_cases hle : (chunks.flatten.length : ℚ) / (1024 * 1024) ≤ 800
  · rw [if_pos hle]
    exact ⟨fun _ => hiff.mp hle, fun _ => rfl⟩
  · rw [if_neg hle]
    have hng : ¬ chunks.flatten.length ≤ 800 * 1024 * 1024 := fun h0 => hle (hiff.mpr h0)
    simp only [hng, iff_false]
    cases inp with
    | none => simp
    | some v =>
      dsimp only
      by_cases hv : validateInput ((chunks.flatten.length : ℚ) / (1024 * 1024)) v = true
      · rw [if_pos hv]
        simp
      · rw [if_neg hv]
        simp

/-! ### Whole-number targets: the `ℚ` machine coincides with the `Nat` mirror -/

theorem processLine_natCast (n : Nat) (b : String) (s : SplitState) (l : List Nat) :
    processLine (n : ℚ) b s l = processLineN n b s l := by
  simp only [processLine, processLineN, Nat.cast_lt]

theorem processData_natCast (n : Nat) (b : String) (st : StreamState) (c : List Nat) :
    processData (n : ℚ) b st c = processDataN n b st c := by
  have hfn : processLine ((n : Nat) : ℚ) b = processLineN n b := by
    funext s l
    exact processLine_natCast n b s l
  simp only [processData, processDataN, hfn]

theorem runSplit_natCast (n : Nat) (b : String) (chunks : List (List Nat)) :
    runSplit (n : ℚ) b chunks = runSplitN n b chunks := by
  have hfn : processData ((n : Nat) : ℚ) b = processDataN n b := by
    funext st c
    exact processData_natCast n b st c
  simp only [runSplit, runSplitN, hfn]

theorem splitFiles_natCast (n : Nat) (b : String) (chunks : List (List Nat)) :
    splitFiles (n : ℚ) b chunks = splitFilesN n b chunks := by
  simp only [splitFiles, splitFilesN, runSplit_natCast]

set_option maxRecDepth 40000 in
/-- C8.  Scenario A: ten lines of 100 bytes plus newline (101 bytes each) with
a 250-byte target produce exactly five chunks, each holding exactly two lines,
since a third line would push a chunk to 303 > 250 bytes. -/
theorem scenario_a :
    (splitFiles 250 "app" [scenarioAFile]).map ChunkFile.content =
      List.replicate 5 (lineA ++ lineA) := by
  rw [show (250 : ℚ) = ((250 : Nat) : ℚ) by norm_num, splitFiles_natCast]
  decide

set_option maxRecDepth 40000 in
/-- Counterexample for C4 as stated: on a file whose lines measure 300, 400 and
300 bytes (the last without a trailing newline), with target 250 the second
chunk ends up with 700 bytes, which exceeds 250 plus the size of *every*
single line of the file — in particular 250 plus the 400-byte line that
triggered the rotation that opened this chunk.  The unchecked end-of-stream
residual is what breaks the claimed bound. -/
theorem soft_bound_counterexample :
    ∃ f ∈ splitFiles 250 "x" [cexFile],
      ∀ l ∈ linesOf ([cexFile] : List (List Nat)).flatten,
        250 + l.length < f.content.length := by
  rw [show (250 : ℚ) = ((250 : Nat) : ℚ) by norm_num, splitFiles_natCast]
  decide

/-- C4 (amended).  Soft budget bound: every chunk's byte size is at most the
target plus the size of the chunk's own first line (the line that was accepted
into the empty chunk by the rotation check), plus — for the final chunk only —
the size of the unterminated final line, which the end handler appends without
any rotation check. -/
theorem soft_bound_amended (t : ℚ) (b : String) (chunks : List (List Nat)) (ht : 0 ≤ t) :
    ∀ (i : Nat) (f : ChunkFile), (splitFiles t b chunks)[i]? = some f →
      (f.content.length : ℚ) ≤ t + firstLineLen f.content +
        (if i + 1 = (splitFiles t b chunks).length
          then ((extractLines chunks.flatten).2.length : ℚ) else 0) := by
  obtain ⟨gs, h1, h2, h3, h4, -, -⟩ := runSplit_master t b chunks
  intro i f hf
  obtain ⟨hi, hfi⟩ := List.getElem?_eq_some.mp hf
  have hlen : (splitFiles t b chunks).length = gs.length := by
    have e := congrArg List.length h1
    simpa [contentsOf] using e
  have hig : i < gs.length := by omega
  have hic : i < (contentsOf (splitFiles t b chunks)).length := by
    simpa [contentsOf] using hi
  have hcontent : f.content = (gs.get ⟨i, hig⟩).flatten := by
    have e := List.getElem_of_eq h1 hic
    simp only [contentsOf, List.getElem_map] at e
    rw [hfi] at e
    rw [List.get_eq_getElem]
    exact e
  rw [hcontent]
  by_cases hlast : i + 1 = (splitFiles t b chunks).length
  · rw [if_pos hlast]
    have hgl : gs.getLast? = some (gs.get ⟨i, hig⟩) := by
      rw [List.getLast?_eq_getElem?]
      have hix : gs.length - 1 = i := by omega
      rw [hix, List.getElem?_eq_getElem hig, List.get_eq_getElem]
    have hRn : (0 : ℚ) ≤ ((extractLines chunks.flatten).2.length : ℚ) :=
      Nat.cast_nonneg _
    rcases h4 _ hgl with hgood | ⟨g0, hg0, hcase⟩
    · rcases hgood with ⟨hne, hlines, hbound⟩
      by_cases h2g : 2 ≤ (gs.get ⟨i, hig⟩).length
      · have hb := hbound h2g
        have hfl : (0 : ℚ) ≤ (firstLineLen (gs.get ⟨i, hig⟩).flatten : ℚ) :=
          Nat.cast_nonneg _
        linarith
      · have h1g : (gs.get ⟨i, hig⟩).length = 1 := by
          have := List.length_pos.mpr hne
          omega
        obtain ⟨l, hleq⟩ := List.length_eq_one.mp h1g
        have hisl : IsLine l := hlines l (by rw [hleq]; simp)
        rw [hleq, show ([l] : List (List Nat)).flatten = l by simp]
        have hfll : firstLineLen l = l.length := by
          have e := firstLineLen_isLine l [] hisl
          simpa using e
        rw [hfll]
        linarith
    · have hR10 : 10 ∉ (extractLines chunks.flatten).2 := extractLines_rem chunks.flatten
      rw [hg0, List.flatten_append,
        show ([(extractLines chunks.flatten).2] : List (List Nat)).flatten
          = (extractLines chunks.flatten).2 by simp]
      rcases hcase with hcase | hgood0
      · rw [hcase]
        simp only [List.flatten_nil, List.nil_append]
        rw [firstLineLen_no_nl _ hR10]
        linarith
      · rcases hgood0 with ⟨hne0, hlines0, hbound0⟩
        by_cases h2g : 2 ≤ g0.length
        · have hb := hbound0 h2g
          have hfl : (0 : ℚ) ≤
              (firstLineLen (g0.flatten ++ (extractLines chunks.flatten).2) : ℚ) :=
            Nat.cast_nonneg _
          rw [List.length_append]
          push_cast
          push_cast at hb
          linarith
        · have h1g : g0.length = 1 := by
            have := List.length_pos.mpr hne0
            omega
          obtain ⟨l, hleq⟩ := List.length_eq_one.mp h1g
          have hisl : IsLine l := hlines0 l (by rw [hleq]; simp)
          rw [hleq, show ([l] : List (List Nat)).flatten = l by simp,
            firstLineLen_isLine l _ hisl, List.length_append]
          push_cast
          linarith
  · rw [if_neg hlast]
    have hil : i < gs.dropLast.length := by
      rw [List.length_dropLast]
      omega
    have hmem : gs.get ⟨i, hig⟩ ∈ gs.dropLast := by
      have hm := List.getElem_mem hil
      rw [List.getElem_dropLast] at hm
      rw [List.get_eq_getElem]
      exact hm
    rcases h3 _ hmem with ⟨hne, hlines, hbound⟩
    by_cases h2g : 2 ≤ (gs.get ⟨i, hig⟩).length
    · have hb := hbound h2g
      have hfl : (0 : ℚ) ≤ (firstLineLen (gs.get ⟨i, hig⟩).flatten : ℚ) :=
        Nat.cast_nonneg _
      linarith
    · have h1g : (gs.get ⟨i, hig⟩).length = 1 := by
        have := List.length_pos.mpr hne
        omega
      obtain ⟨l, hleq⟩ := List.length_eq_one.mp h1g
      have hisl : IsLine l := hlines l (by rw [hleq]; simp)
      rw [hleq, show ([l] : List (List Nat)).flatten = l by simp]
      have hfll : firstLineLen l = l.length := by
        have e := firstLineLen_isLine l [] hisl
        simpa using e
      rw [hfll]
      linarith

/-- Witness for C4 (amended) on a one-line file with target 2: the single
2-byte line gives a chunk of 2 bytes, within the bound. -/
theorem soft_bound_amended_witness :
    ((({ name := chunkName "x" 1, index := 1, content := [97, 10] } : ChunkFile).content.length :
        ℚ)) ≤
      2 + firstLineLen
          ({ name := chunkName "x" 1, index := 1, content := [97, 10] } : ChunkFile).content +
        (if 0 + 1 = (splitFiles 2 "x" [[97, 10]]).length
          then ((extractLines ([[97, 10]] : List (List Nat)).flatten).2.length : ℚ) else 0) :=
  soft_bound_amended 2 "x" [[97, 10]] (by norm_num) 0
    { name := chunkName "x" 1, index := 1, content := [97, 10] }
    (by rw [show (2 : ℚ) = ((2 : Nat) : ℚ) by norm_num, splitFiles_natCast]; decide)

/-- C10.  Implicit oversized-chunk shape: every chunk except the last that
exceeds the target holds exactly one line (its content contains exactly one
newline byte); equivalently, every non-final chunk with two or more lines is
within the target. -/
theorem oversized_nonfinal_single_line (t : ℚ) (b : String) (chunks : List (List Nat)) :
    ∀ (i : Nat) (f : ChunkFile), i + 1 < (splitFiles t b chunks).length →
      (splitFiles t b chunks)[i]? = some f →
      t < (f.content.length : ℚ) → List.count 10 f.content = 1 := by
  obtain ⟨gs, h1, h2, h3, h4, -, -⟩ := runSplit_master t b chunks
  intro i f hlt hf hgt
  obtain ⟨hi, hfi⟩ := List.getElem?_eq_some.mp hf
  have hlen : (splitFiles t b chunks).length = gs.length := by
    have e := congrArg List.length h1
    simpa [contentsOf] using e
  have hig : i < gs.length := by omega
  have hic : i < (contentsOf (splitFiles t b chunks)).length := by
    simpa [contentsOf] using hi
  have hcontent : f.content = (gs.get ⟨i, hig⟩).flatten := by
    have e := List.getElem_of_eq h1 hic
    simp only [contentsOf, List.getElem_map] at e
    rw [hfi] at e
    rw [List.get_eq_getElem]
    exact e
  have hil : i < gs.dropLast.length := by
    rw [List.length_dropLast]
    omega
  have hmem : gs.get ⟨i, hig⟩ ∈ gs.dropLast := by
    have hm := List.getElem_mem hil
    rw [List.getElem_dropLast] at hm
    rw [List.get_eq_getElem]
    exact hm
  rcases h3 _ hmem with ⟨hne, hlines, hbound⟩
  by_cases h2g : 2 ≤ (gs.get ⟨i, hig⟩).length
  · exfalso
    have hb := hbound h2g
    rw [hcontent] at hgt
    exact absurd hgt (not_lt.mpr hb)
  · have h1g : (gs.get ⟨i, hig⟩).length = 1 := by
      have := List.length_pos.mpr hne
      omega
    obtain ⟨l, hleq⟩ := List.length_eq_one.mp h1g
    have hisl : IsLine l := hlines l (by rw [hleq]; simp)
    rw [hcontent, hleq, show ([l] : List (List Nat)).flatten = l by simp]
    rcases hisl with ⟨p, hpl, hp⟩
    rw [hpl, List.count_append, List.count_eq_zero.mpr hp]
    simp

/-- Witness for C10: with target 2, a 4-byte first line forms an oversized
first chunk of exactly one line, followed by a second chunk. -/
theorem oversized_nonfinal_single_line_witness :
    List.count 10
      ({ name := chunkName "x" 1, index := 1, content := [97, 97, 97, 10] } : ChunkFile).content
      = 1 :=
  oversized_nonfinal_single_line 2 "x" [[97, 97, 97, 10, 98, 10]] 0
    { name := chunkName "x" 1, index := 1, content := [97, 97, 97, 10] }
    (by rw [show (2 : ℚ) = ((2 : Nat) : ℚ) by norm_num, splitFiles_natCast]; decide)
    (by rw [show (2 : ℚ) = ((2 : Nat) : ℚ) by norm_num, splitFiles_natCast]; decide)
    (by norm_num)

end XlogSplit

